import Mathlib

/-!
Verification of the github-gold-miner mining pipeline core.

Shallow embedding of:
* `internal/common` retry executor (`Do`),
* `internal/adapter/filter` (`FilterByCreatedAt`, `FilterByRecentCommit`,
  `isReadmeFile`),
* `internal/adapter/analyzer` (`CalculateStarGrowthRate`, `AnalyzeWithLLM`),
* `internal/adapter/service` mining orchestrator (`ExecuteMiningCycle`
  persist/notify stage).

Go machine integers are modelled by `Int`, `time.Time` instants and
`time.Duration` by `Int` nanoseconds, `float64` by `ℚ`, and fallible calls by
`Except`/`Option`.  External collaborators (GitHub client, LLM appraiser,
store, notifier) are oracles passed in as parameters, exactly at the interface
boundaries the Go code uses.
-/

namespace GoldMiner

/-- The pipeline's `domain.Repo` record (internal/domain, part_000). -/
structure Repo where
  ID : String
  Name : String
  URL : String
  Description : String
  Stars : Int
  Language : String
  CreatedAt : Int
  UpdatedAt : Int
  StarGrowthRate : ℚ
  IsAIProgrammingTool : Bool
  LLMScore : Int
  LLMReview : String
  AlreadyNotified : Bool
deriving DecidableEq, Repr, Inhabited

/-- Nanoseconds in `time.Hour`. -/
def nsPerHour : Int := 3600 * 1000000000

/-- Nanoseconds in a 24-hour day (`24 * time.Hour`). -/
def nsPerDay : Int := 24 * nsPerHour

namespace Common

/-- The two values Go's `ctx.Err()` can take once a context is done. -/
inductive CtxErr where
  | canceled
  | deadlineExceeded
deriving DecidableEq, Repr

/-- Outcome of `common.Do` (part_008).  `abortedBefore` is the
`"retry aborted after %d attempts"` error from the pre-sleep select;
`abortedBackoff` is the `"retry aborted during backoff (attempt %d/%d)"`
error from the in-sleep select; `exhausted` is the
`"retry failed after %d attempts"` error wrapping the last error. -/
inductive DoResult (E : Type) where
  | ok : DoResult E
  | abortedBefore (attempts : Nat) (cause : CtxErr) : DoResult E
  | abortedBackoff (attempt maxRetries : Nat) (cause : CtxErr) : DoResult E
  | exhausted (attempts : Nat) (lastErr : E) : DoResult E
deriving DecidableEq, Repr

/-- Whether a `DoResult` is a cancellation-kind error (one of the two
context-abort errors, wrapping `ctx.Err()`). -/
def DoResult.isCancellation {E : Type} : DoResult E → Bool
  | .abortedBefore _ _ => true
  | .abortedBackoff _ _ _ => true
  | _ => false

/-- The context cause a cancellation-kind `DoResult` wraps, if any. -/
def DoResult.cause? {E : Type} : DoResult E → Option CtxErr
  | .abortedBefore _ c => some c
  | .abortedBackoff _ _ c => some c
  | _ => none

variable {E : Type}

/-- Retry loop of `common.Do` for attempts `1..maxRetries` (part_008 lines
120-147).  The context is modelled by `done : Nat → Bool` over checkpoint
indices: attempt `a` checks the context at checkpoint `2*(a-1)` (the select
before sleeping) and at `2*(a-1)+1` (the select during the backoff sleep);
`cause` is the context's `ctx.Err()` value.  `fn i` is the outcome of the
`(i+1)`-th call of the operation (`none` = success).  Returns the result and
the number of operation calls made inside the loop. -/
def doLoop (done : Nat → Bool) (cause : CtxErr) (fn : Nat → Option E)
    (m : Nat) (attempt : Nat) (lastErr : E) : DoResult E × Nat :=
  if m < attempt then (.exhausted (m + 1) lastErr, 0)
  else if done (2 * (attempt - 1)) then (.abortedBefore attempt cause, 0)
  else if done (2 * (attempt - 1) + 1) then (.abortedBackoff attempt m cause, 0)
  else
    match fn attempt with
    | none => (.ok, 1)
    | some e =>
      let r := doLoop done cause fn m (attempt + 1) e
      (r.1, r.2 + 1)
termination_by m + 1 - attempt
decreasing_by simp_wf; omega

/-- `common.Do` (part_008 lines 97-151) for a non-nil operation: first
attempt runs immediately, then the retry loop.  Returns the result and the
total number of operation calls. -/
def Do (done : Nat → Bool) (cause : CtxErr) (fn : Nat → Option E)
    (m : Nat) : DoResult E × Nat :=
  match fn 0 with
  | none => (.ok, 1)
  | some e =>
    let r := doLoop done cause fn m 1 e
    (r.1, r.2 + 1)

/-- A context that is never done. -/
def neverDone : Nat → Bool := fun _ => false

/-- A context whose done-channel is observable from checkpoint `c` on
(cancellation is monotone). -/
def doneFrom (c : Nat) : Nat → Bool := fun t => decide (c ≤ t)

end Common

namespace Filter

/-- `FilterByCreatedAt` (part_003 lines 46-61): keeps a repository when
`current.Sub(repo.CreatedAt) <= time.Duration(maxDaysOld) * 24 * time.Hour`.
The injected clock `nowFunc` is the parameter `nowNs` (nanoseconds). -/
def FilterByCreatedAt (nowNs : Int) (repos : List Repo) (maxDaysOld : Int) :
    List Repo :=
  let maxAge := maxDaysOld * (24 * nsPerHour)
  repos.filter (fun repo => decide (nowNs - repo.CreatedAt ≤ maxAge))

/-- Behaviour of Go's `strings.Split(s, "/")` on a string viewed as its
character list: splits at every `'/'`; never returns an empty list. -/
def splitOnSlash : List Char → List (List Char)
  | [] => [[]]
  | c :: cs =>
    if c = '/' then [] :: splitOnSlash cs
    else
      match splitOnSlash cs with
      | [] => [[c]]
      | s :: rest => (c :: s) :: rest

/-- The `readmePatterns` list of `isReadmeFile` (part_003 lines 216-224). -/
def readmePatterns : List (List Char) :=
  [("readme").data, ("readme.md").data, ("readme.txt").data,
   ("readme.rst").data, ("readme.markdown").data, ("readme.mdown").data,
   ("readme.mkdn").data]

/-- `isReadmeFile` (part_003 lines 211-245): lower-cases the filename,
first tests it whole against `readmePatterns`, then tests the last
`'/'`-separated segment against the same patterns.  Strings are modelled as
their character lists; `strings.ToLower` as `Char.toLower` on each
character. -/
def isReadmeFile (filename : List Char) : Bool :=
  let lower := filename.map Char.toLower
  if lower ∈ readmePatterns then true
  else
    let parts := splitOnSlash lower
    if parts.length > 0 then
      let lastPart := parts.getD (parts.length - 1) []
      lastPart ∈ readmePatterns
    else false

/-- Per-repository keep decision of `FilterByRecentCommit` (part_003 lines
74-106): an unparsable URL keeps the repository, an error from
`hasNonReadmeCommit` keeps it, otherwise its boolean answer decides.
`parseRepoURL` models `url.Parse` + host check + path split (Go stdlib);
`hasNRC` models `hasNonReadmeCommit` (GitHub API collaborator). -/
def keepByCommit (parseRepoURL : String → Option (String × String))
    (hasNRC : String → String → Except String Bool) (repo : Repo) : Bool :=
  match parseRepoURL repo.URL with
  | none => true
  | some (owner, repoName) =>
    match hasNRC owner repoName with
    | .error _ => true
    | .ok b => b

/-- `FilterByRecentCommit` (part_003 lines 64-114): with no GitHub client it
returns (a copy of) the input unchanged; otherwise it appends, in input
order, every repository whose keep decision is true, and normalises an
all-dropped result to the empty list. -/
def FilterByRecentCommit (clientPresent : Bool)
    (parseRepoURL : String → Option (String × String))
    (hasNRC : String → String → Except String Bool)
    (repos : List Repo) : List Repo :=
  if clientPresent then
    let filtered := repos.filter (keepByCommit parseRepoURL hasNRC)
    if filtered.isEmpty then [] else filtered
  else repos

end Filter

namespace Analyzer

/-- `CalculateStarGrowthRate` body for one repository (analyzer.go lines
43-52): `daysAlive := current.Sub(repo.CreatedAt).Hours() / 24`; rate is 0
when `daysAlive <= 0`, else `float64(repo.Stars) / daysAlive`.  `float64`
arithmetic is idealised over `ℚ`. -/
def calcGrowthOne (nowNs : Int) (repo : Repo) : Repo :=
  let daysAlive : ℚ := ((nowNs - repo.CreatedAt : Int) : ℚ) / ((nsPerDay : Int) : ℚ)
  if daysAlive ≤ 0 then { repo with StarGrowthRate := 0 }
  else { repo with StarGrowthRate := ((repo.Stars : Int) : ℚ) / daysAlive }

/-- `CalculateStarGrowthRate` (analyzer.go lines 37-54) over the list,
with the injected clock `nowNs`. -/
def CalculateStarGrowthRate (nowNs : Int) (repos : List Repo) : List Repo :=
  repos.map (calcGrowthOne nowNs)

/-- Body of `analyzeRepoWorker` for one job (analyzer.go lines 67-93): on
appraiser error the original repository is emitted unchanged; on success the
repository is emitted with the appraiser's qualification flag, score and
review copied onto it. -/
def processOne (appraise : Repo → Except String Repo) (repo : Repo) : Repo :=
  match appraise repo with
  | .error _ => repo
  | .ok analyzedRepo =>
    { repo with
      IsAIProgrammingTool := analyzedRepo.IsAIProgrammingTool,
      LLMScore := analyzedRepo.LLMScore,
      LLMReview := analyzedRepo.LLMReview }

/-- The shared repository slice after the workers listed in `done`
(indices into `repos`, in completion order) have finished: each completed
worker mutates its repository in place. -/
def updateCompleted (appraise : Repo → Except String Repo)
    (repos : List Repo) (done : List Nat) : List Repo :=
  done.foldl (fun acc i => acc.set i (processOne appraise (acc.getD i default))) repos

/-- `AnalyzeWithLLM` (analyzer.go lines 97-155).  The scheduler is modelled
by `order`, the completion order of the jobs (a permutation of the input
indices, realisable for any positive worker count).  `cancelAfter = none`:
the outer context never fires, all jobs complete, and the drained results
channel holds the processed repositories in completion order with a nil
error.  `cancelAfter = some (k, cause)`: the outer context fires after `k`
completions, and the call returns the input slice as it stands (completed
entries mutated in place) together with `ctx.Err()`. -/
def AnalyzeWithLLM (appraise : Repo → Except String Repo) (repos : List Repo)
    (order : List Nat) (cancelAfter : Option (Nat × Common.CtxErr)) :
    List Repo × Option Common.CtxErr :=
  match cancelAfter with
  | none => (order.map (fun i => processOne appraise (repos.getD i default)), none)
  | some (k, cause) => (updateCompleted appraise repos (order.take k), some cause)

end Analyzer

namespace Service

/-- Failure-injection oracles for the store and notifier collaborators of
the persist/notify stage, keyed by repository ID, plus whether a notifier
is configured (part_007 lines 120-150). -/
structure Oracles where
  existsFail : String → Bool
  saveFail : String → Bool
  notifyFail : String → Bool
  markFail : String → Bool
  hasNotifier : Bool

/-- State of the repository store: which IDs exist, which are marked
notified.  `Save` inserts the ID; `MarkAsNotified` records it. -/
structure StoreSt where
  existing : List String
  notified : List String
deriving DecidableEq, Repr

/-- A collaborator call made by the persist/notify loop. -/
inductive Event where
  | existsCheck (id : String)
  | save (id : String)
  | notify (id : String)
  | markNotified (id : String)
deriving DecidableEq, Repr

/-- One iteration body of the persist/notify loop (part_007 lines 114-152):
qualification bar, `Exists` check, `Save`, nil-notifier check, `Notify`,
`MarkAsNotified`, each failure skipping the rest.  Returns the new store
state, the collaborator calls made, and whether `successCount` was
incremented. -/
def processRepo (oc : Oracles) (st : StoreSt) (repo : Repo) :
    StoreSt × List Event × Bool :=
  if !repo.IsAIProgrammingTool || repo.LLMScore < 50 then (st, [], false)
  else if oc.existsFail repo.ID then (st, [.existsCheck repo.ID], false)
  else if repo.ID ∈ st.existing then (st, [.existsCheck repo.ID], false)
  else if oc.saveFail repo.ID then
    (st, [.existsCheck repo.ID, .save repo.ID], false)
  else
    let st1 : StoreSt := { st with existing := repo.ID :: st.existing }
    if !oc.hasNotifier then
      (st1, [.existsCheck repo.ID, .save repo.ID], false)
    else if oc.notifyFail repo.ID then
      (st1, [.existsCheck repo.ID, .save repo.ID, .notify repo.ID], false)
    else if oc.markFail repo.ID then
      (st1, [.existsCheck repo.ID, .save repo.ID, .notify repo.ID,
             .markNotified repo.ID], false)
    else
      ({ st1 with notified := repo.ID :: st1.notified },
       [.existsCheck repo.ID, .save repo.ID, .notify repo.ID,
        .markNotified repo.ID], true)

/-- The persist/notify loop (part_007 lines 105-156): before each
repository the cycle context is checked (`cancelled idx`, `idx` the
iteration index); cancellation jumps to `finish`.  Returns the final store
state, the trace of collaborator calls, and `successCount`. -/
def persistLoop (oc : Oracles) (cancelled : Nat → Bool) :
    StoreSt → Nat → List Repo → StoreSt × List Event × Nat
  | st, _, [] => (st, [], 0)
  | st, idx, repo :: rest =>
    if cancelled idx then (st, [], 0)
    else
      let p := processRepo oc st repo
      let r := persistLoop oc cancelled p.1 (idx + 1) rest
      (r.1, p.2.1 ++ r.2.1, (if p.2.2 then 1 else 0) + r.2.2)

/-- Collaborator behaviour of one whole mining cycle (part_007 lines
43-161): fetcher results, the two filters, the analyzer stages, the
store/notifier oracles with initial store state, and the cycle context seen
by the persist/notify loop. -/
structure MiningEnv where
  getTrending : Except String (List Repo)
  getByTopic : String → Except String (List Repo)
  filterByCreatedAt : List Repo → Int → List Repo
  filterByRecentCommit : List Repo → List Repo × Option String
  calcGrowth : List Repo → List Repo
  analyzeWithLLM : List Repo → List Repo × Option String
  oc : Oracles
  store : StoreSt
  cancelled : Nat → Bool

/-- Result of a mining cycle: the error returned by `ExecuteMiningCycle`,
the analyzed list entering the persist/notify stage, the final store state,
the collaborator-call trace and `successCount`. -/
structure CycleResult where
  err : Option String
  analyzed : List Repo
  store : StoreSt
  trace : List Event
  successCount : Nat
deriving Repr

/-- `ExecuteMiningCycle` (part_007 lines 43-161): fetch trending (a failure
drops that subset), fetch each fixed topic (failures skip that topic),
concatenate, age-filter with threshold 10, activity-filter (its list is used
even alongside an error), growth rate, LLM analysis (its list is used even
alongside an error), then the persist/notify loop; finally `return nil`. -/
def ExecuteMiningCycle (env : MiningEnv) : CycleResult :=
  let trendingRepos := match env.getTrending with
    | .ok l => l
    | .error _ => []
  let topics := ["ai-coding", "ide-extension", "dev-tools"]
  let topicRepos := topics.foldl
    (fun acc topic => match env.getByTopic topic with
      | .ok l => acc ++ l
      | .error _ => acc) []
  let allRepos := trendingRepos ++ topicRepos
  let filtered1 := env.filterByCreatedAt allRepos 10
  let filtered2 := (env.filterByRecentCommit filtered1).1
  let grown := env.calcGrowth filtered2
  let analyzed := (env.analyzeWithLLM grown).1
  let r := persistLoop env.oc env.cancelled env.store 0 analyzed
  { err := none, analyzed := analyzed, store := r.1, trace := r.2.1,
    successCount := r.2.2 }

end Service

/-! Auxiliary definitions: the spec-side notion of base name for
`isReadmeFile`, and concrete inputs used by witnesses. -/

namespace Filter

/-- Spec-side definition (for comparison with `isReadmeFile`): the
lowercased last `'/'`-separated path segment of a filename. -/
def lowerBaseName (filename : List Char) : List Char :=
  (splitOnSlash (filename.map Char.toLower)).getLastD []

end Filter

/-- A sample repository created exactly ten days before time 0, qualifying
with score 80. -/
def freshRepo : Repo :=
  { ID := "r-fresh", Name := "fresh", URL := "https://github.com/a/fresh",
    Description := "", Stars := 120, Language := "Go",
    CreatedAt := -(10 * nsPerDay), UpdatedAt := 0, StarGrowthRate := 0,
    IsAIProgrammingTool := true, LLMScore := 80, LLMReview := "",
    AlreadyNotified := false }

/-- A sample repository created exactly eleven days before time 0. -/
def staleRepo : Repo :=
  { freshRepo with
    ID := "r-stale",
    Name := "stale",
    CreatedAt := -(11 * nsPerDay) }

/-- A small repository constructor used by concrete witnesses. -/
def mkRepo (id : String) : Repo :=
  { freshRepo with ID := id, Name := id }

/-- Five distinct sample repositories. -/
def repos5 : List Repo :=
  [mkRepo ("a"), mkRepo ("b"), mkRepo ("c"), mkRepo ("d"), mkRepo ("e")]

/-- An appraiser that succeeds on every repository, flagging it with
score 90. -/
def okAppraise : Repo → Except String Repo := fun r =>
  .ok { r with
        IsAIProgrammingTool := true,
        LLMScore := 90,
        LLMReview := "solid" }

/-- An operation that fails on its first two calls and then succeeds. -/
def failTwice : Nat → Option String := fun j =>
  if j < 2 then some ("boom") else none

/-- An operation that fails on every call. -/
def alwaysFail : Nat → Option String := fun _ => some ("boom")

/-- Store/notifier oracles where every collaborator call succeeds and a
notifier is configured. -/
def okOracles : Service.Oracles :=
  { existsFail := fun _ => false, saveFail := fun _ => false,
    notifyFail := fun _ => false, markFail := fun _ => false,
    hasNotifier := true }

/-- An empty initial store. -/
def emptyStore : Service.StoreSt := { existing := [], notified := [] }

/-- A concrete mining environment whose cycle context cancels from the
second persist/notify iteration on. -/
def envExample : Service.MiningEnv :=
  { getTrending := .ok [mkRepo ("a"), mkRepo ("b"), mkRepo ("c")],
    getByTopic := fun _ => .error ("api down"),
    filterByCreatedAt := fun l _ => l,
    filterByRecentCommit := fun l => (l, none),
    calcGrowth := fun l => l,
    analyzeWithLLM := fun l => (l, none),
    oc := okOracles, store := emptyStore,
    cancelled := fun i => decide (1 ≤ i) }

/-! Helper lemmas. -/

theorem splitOnSlash_ne_nil (l : List Char) : Filter.splitOnSlash l ≠ [] := by
  induction l with
  | nil => simp [Filter.splitOnSlash]
  | cons c cs ih =>
    rw [Filter.splitOnSlash]
    split
    · simp
    · cases h : Filter.splitOnSlash cs with
      | nil => simp
      | cons s rest => simp

theorem getD_length_sub_one {α : Type} (l : List α) (d : α) :
    l.getD (l.length - 1) d = l.getLastD d := by
  rw [List.getD_eq_getElem?_getD, List.getLastD_eq_getLast?,
    List.getLast?_eq_getElem?]

theorem range_map_getD {α β : Type} [Inhabited α] (l : List α) (g : α → β) :
    (List.range l.length).map (fun i => g (l.getD i default)) = l.map g := by
  induction l with
  | nil => simp
  | cons a t ih =>
    rw [List.length_cons, List.range_succ_eq_map]
    simp only [List.map_cons, List.map_map, Function.comp_def,
      List.getD_cons_zero, List.getD_cons_succ]
    rw [ih]

/-- Auxiliary URL parser for witnesses: never parses. -/
def noParse : String → Option (String × String) := fun _ => none

/-- Auxiliary commit oracle for witnesses: always reports a real commit. -/
def noHNRC : String → String → Except String Bool := fun _ _ => .ok true

/-- Claim C7: for every repository list and every maxDaysOld,
FilterByCreatedAt keeps a repository if and only if (now - CreatedAt) is at
most maxDaysOld days, where now comes from the injected clock; a repository
created exactly maxDaysOld days before now is kept (boundary inclusive),
and one created one day earlier is dropped. -/
theorem filterByCreatedAt_keeps_iff (nowNs maxDaysOld : Int) (repos : List Repo) :
    (∀ repo : Repo,
      repo ∈ Filter.FilterByCreatedAt nowNs repos maxDaysOld ↔
        repo ∈ repos ∧ nowNs - repo.CreatedAt ≤ maxDaysOld * nsPerDay) ∧
    (∀ repo ∈ repos, nowNs - repo.CreatedAt = maxDaysOld * nsPerDay →
      repo ∈ Filter.FilterByCreatedAt nowNs repos maxDaysOld) ∧
    (∀ repo ∈ repos, nowNs - repo.CreatedAt = (maxDaysOld + 1) * nsPerDay →
      repo ∉ Filter.FilterByCreatedAt nowNs repos maxDaysOld) := by
  have hmem : ∀ repo : Repo,
      repo ∈ Filter.FilterByCreatedAt nowNs repos maxDaysOld ↔
        repo ∈ repos ∧ nowNs - repo.CreatedAt ≤ maxDaysOld * nsPerDay := by
    intro repo
    simp [Filter.FilterByCreatedAt, List.mem_filter, nsPerDay]
  refine ⟨hmem, ?_, ?_⟩
  · intro repo hr he
    exact (hmem repo).2 ⟨hr, le_of_eq he⟩
  · intro repo hr he hin
    have hle := ((hmem repo).1 hin).2
    rw [he] at hle
    have hpos : (0:Int) < nsPerDay := by norm_num [nsPerDay, nsPerHour]
    have hexp : (maxDaysOld + 1) * nsPerDay = maxDaysOld * nsPerDay + nsPerDay := by
      ring
    linarith

/-- Witness for C7 at a concrete input: the repository exactly ten days old
is kept by the ten-day filter, the eleven-day-old one is dropped. -/
theorem filterByCreatedAt_keeps_iff_witness :
    freshRepo ∈ Filter.FilterByCreatedAt 0 [freshRepo, staleRepo] 10 ∧
    staleRepo ∉ Filter.FilterByCreatedAt 0 [freshRepo, staleRepo] 10 :=
  ⟨(filterByCreatedAt_keeps_iff 0 10 [freshRepo, staleRepo]).2.1 freshRepo
      (by decide) (by decide),
   (filterByCreatedAt_keeps_iff 0 10 [freshRepo, staleRepo]).2.2 staleRepo
      (by decide) (by decide)⟩

/-- Claim C9: for every repository with non-negative Stars, after
CalculateStarGrowthRate runs, StarGrowthRate is exactly 0 whenever the age
(now - CreatedAt) is non-positive (including CreatedAt = now), equals Stars
divided by the age in days when the age is positive (the divisor being
positive, so no division by zero occurs), and is never negative. -/
theorem starGrowthRate_spec (nowNs : Int) (repos : List Repo)
    (hs : ∀ r ∈ repos, 0 ≤ r.Stars) :
    (∀ r' ∈ Analyzer.CalculateStarGrowthRate nowNs repos,
      0 ≤ r'.StarGrowthRate) ∧
    (∀ r ∈ repos,
      (nowNs - r.CreatedAt ≤ 0 →
        (Analyzer.calcGrowthOne nowNs r).StarGrowthRate = 0) ∧
      (0 < nowNs - r.CreatedAt →
        0 < ((nowNs - r.CreatedAt : Int) : ℚ) / ((nsPerDay : Int) : ℚ) ∧
        (Analyzer.calcGrowthOne nowNs r).StarGrowthRate =
          ((r.Stars : Int) : ℚ) /
            (((nowNs - r.CreatedAt : Int) : ℚ) / ((nsPerDay : Int) : ℚ)))) := by
  have hD : (0:ℚ) < ((nsPerDay : Int) : ℚ) := by
    have : (0:Int) < nsPerDay := by norm_num [nsPerDay, nsPerHour]
    exact_mod_cast this
  have hzero : ∀ r : Repo, nowNs - r.CreatedAt ≤ 0 →
      (Analyzer.calcGrowthOne nowNs r).StarGrowthRate = 0 := by
    intro r h
    have hx : ((nowNs - r.CreatedAt : Int) : ℚ) ≤ 0 := by exact_mod_cast h
    have hdiv : ((nowNs - r.CreatedAt : Int) : ℚ) / ((nsPerDay : Int) : ℚ) ≤ 0 :=
      div_nonpos_of_nonpos_of_nonneg hx hD.le
    simp only [Analyzer.calcGrowthOne]
    rw [if_pos hdiv]
  have hposr : ∀ r : Repo, 0 < nowNs - r.CreatedAt →
      0 < ((nowNs - r.CreatedAt : Int) : ℚ) / ((nsPerDay : Int) : ℚ) ∧
      (Analyzer.calcGrowthOne nowNs r).StarGrowthRate =
        ((r.Stars : Int) : ℚ) /
          (((nowNs - r.CreatedAt : Int) : ℚ) / ((nsPerDay : Int) : ℚ)) := by
    intro r h
    have hx : (0:ℚ) < ((nowNs - r.CreatedAt : Int) : ℚ) := by exact_mod_cast h
    have hdiv : 0 < ((nowNs - r.CreatedAt : Int) : ℚ) / ((nsPerDay : Int) : ℚ) :=
      div_pos hx hD
    refine ⟨hdiv, ?_⟩
    simp only [Analyzer.calcGrowthOne]
    rw [if_neg (not_le.mpr hdiv)]
  refine ⟨?_, fun r hr => ⟨hzero r, hposr r⟩⟩
  intro r' hr'
  rcases List.mem_map.1 hr' with ⟨r, hr, rfl⟩
  by_cases hage : nowNs - r.CreatedAt ≤ 0
  · rw [hzero r hage]
  · have h := hposr r (by omega)
    rw [h.2]
    have hstars : (0:ℚ) ≤ ((r.Stars : Int) : ℚ) := by
      exact_mod_cast hs r hr
    exact div_nonneg hstars h.1.le

/-- Witness for C9 at a concrete input: the ten-day-old repository with 120
stars has a positive age in days and gets rate 120 divided by 10 days. -/
theorem starGrowthRate_spec_witness :
    0 < ((0 - freshRepo.CreatedAt : Int) : ℚ) / ((nsPerDay : Int) : ℚ) ∧
    (Analyzer.calcGrowthOne 0 freshRepo).StarGrowthRate =
      ((freshRepo.Stars : Int) : ℚ) /
        (((0 - freshRepo.CreatedAt : Int) : ℚ) / ((nsPerDay : Int) : ℚ)) :=
  ((starGrowthRate_spec 0 [freshRepo] (by decide)).2 freshRepo
      (by decide)).2 (by decide)

/-- Claim C10: both filtering operations return an order-preserving
subsequence of their input: the output is a sublist of the input (hence
relative order is preserved and each input occurrence is used at most
once, so per-element counts never increase), and every output repository
is an element of the input list, unmodified. -/
theorem filters_subsequence_spec (nowNs maxDaysOld : Int) (repos : List Repo)
    (clientPresent : Bool) (parse : String → Option (String × String))
    (hnrc : String → String → Except String Bool) :
    (Filter.FilterByCreatedAt nowNs repos maxDaysOld).Sublist repos ∧
    (Filter.FilterByRecentCommit clientPresent parse hnrc repos).Sublist repos ∧
    (∀ r : Repo,
      (Filter.FilterByCreatedAt nowNs repos maxDaysOld).count r ≤ repos.count r ∧
      (Filter.FilterByRecentCommit clientPresent parse hnrc repos).count r ≤
        repos.count r) ∧
    (∀ r : Repo,
      (r ∈ Filter.FilterByCreatedAt nowNs repos maxDaysOld → r ∈ repos) ∧
      (r ∈ Filter.FilterByRecentCommit clientPresent parse hnrc repos →
        r ∈ repos)) := by
  have h1 : (Filter.FilterByCreatedAt nowNs repos maxDaysOld).Sublist repos := by
    simp only [Filter.FilterByCreatedAt]
    exact List.filter_sublist _
  have h2 : (Filter.FilterByRecentCommit clientPresent parse hnrc repos).Sublist
      repos := by
    rw [Filter.FilterByRecentCommit]
    split
    · simp only []
      split
      · exact List.nil_sublist _
      · exact List.filter_sublist _
    · exact List.Sublist.refl _
  exact ⟨h1, h2, fun r => ⟨h1.count_le r, h2.count_le r⟩,
    fun r => ⟨fun h => h1.subset h, fun h => h2.subset h⟩⟩

/-- Witness for C10 at a concrete input: a repository surviving both
filters is indeed an element of the input list. -/
theorem filters_subsequence_spec_witness :
    freshRepo ∈ [freshRepo, staleRepo] ∧ freshRepo ∈ [freshRepo] :=
  ⟨((filters_subsequence_spec 0 10 [freshRepo, staleRepo] true noParse
      noHNRC).2.2.2 freshRepo).1 (by decide),
   ((filters_subsequence_spec 0 10 [freshRepo] true noParse
      noHNRC).2.2.2 freshRepo).2 (by decide)⟩

/-- Claim C8: isReadmeFile(filename) returns true if and only if the
lowercased base name (last '/'-separated path segment) of filename is
exactly one of the seven readme patterns; in particular it is true for
README.md, readme, docs/README.md, examples/readme.txt and false for
readme_generator.go, CHANGELOG.md, LICENSE, pkg/service/handler.go. -/
theorem isReadmeFile_spec :
    (∀ filename : List Char,
      Filter.isReadmeFile filename = true ↔
        Filter.lowerBaseName filename ∈ Filter.readmePatterns) ∧
    Filter.isReadmeFile (("README.md").data) = true ∧
    Filter.isReadmeFile (("readme").data) = true ∧
    Filter.isReadmeFile (("docs/README.md").data) = true ∧
    Filter.isReadmeFile (("examples/readme.txt").data) = true ∧
    Filter.isReadmeFile (("readme_generator.go").data) = false ∧
    Filter.isReadmeFile (("CHANGELOG.md").data) = false ∧
    Filter.isReadmeFile (("LICENSE").data) = false ∧
    Filter.isReadmeFile (("pkg/service/handler.go").data) = false := by
  refine ⟨?_, by decide, by decide, by decide, by decide, by decide,
    by decide, by decide, by decide⟩
  intro filename
  rw [Filter.lowerBaseName]
  simp only [Filter.isReadmeFile]
  by_cases h : (filename.map Char.toLower) ∈ Filter.readmePatterns
  · rw [if_pos h]
    simp only [true_iff]
    have hsplit : Filter.splitOnSlash (filename.map Char.toLower) =
        [filename.map Char.toLower] := by
      simp only [Filter.readmePatterns, List.mem_cons,
        List.not_mem_nil, or_false] at h
      rcases h with h | h | h | h | h | h | h <;> rw [h] <;> decide
    rw [hsplit]
    simpa using h
  · rw [if_neg h]
    have hne := splitOnSlash_ne_nil (filename.map Char.toLower)
    have hlen : 0 < (Filter.splitOnSlash (filename.map Char.toLower)).length :=
      List.length_pos.mpr hne
    rw [if_pos hlen, getD_length_sub_one]
    exact decide_eq_true_iff

/-- Witness for C8 at a concrete input: the iff applied to
docs/README.md yields that its lowercased base name is a readme pattern. -/
theorem isReadmeFile_spec_witness :
    Filter.lowerBaseName (("docs/README.md").data) ∈ Filter.readmePatterns :=
  (isReadmeFile_spec.1 (("docs/README.md").data)).mp (by decide)

/-! Branch-unfolding lemmas for the retry loop of `common.Do`. -/

theorem doLoop_exhausted_eq {E : Type} (done : Nat → Bool)
    (cause : Common.CtxErr) (fn : Nat → Option E) (m a : Nat) (e : E)
    (h : m < a) :
    Common.doLoop done cause fn m a e = (.exhausted (m + 1) e, 0) := by
  rw [Common.doLoop]
  simp [h]

theorem doLoop_abortBefore_eq {E : Type} (done : Nat → Bool)
    (cause : Common.CtxErr) (fn : Nat → Option E) (m a : Nat) (e : E)
    (h : ¬ m < a) (hd : done (2 * (a - 1)) = true) :
    Common.doLoop done cause fn m a e = (.abortedBefore a cause, 0) := by
  rw [Common.doLoop]
  simp [h, hd]

theorem doLoop_abortBackoff_eq {E : Type} (done : Nat → Bool)
    (cause : Common.CtxErr) (fn : Nat → Option E) (m a : Nat) (e : E)
    (h : ¬ m < a) (hd1 : done (2 * (a - 1)) = false)
    (hd2 : done (2 * (a - 1) + 1) = true) :
    Common.doLoop done cause fn m a e = (.abortedBackoff a m cause, 0) := by
  rw [Common.doLoop]
  simp [h, hd1, hd2]

theorem doLoop_ok_eq {E : Type} (done : Nat → Bool) (cause : Common.CtxErr)
    (fn : Nat → Option E) (m a : Nat) (e : E) (h : ¬ m < a)
    (hd1 : done (2 * (a - 1)) = false) (hd2 : done (2 * (a - 1) + 1) = false)
    (hf : fn a = none) :
    Common.doLoop done cause fn m a e = (.ok, 1) := by
  rw [Common.doLoop]
  simp [h, hd1, hd2, hf]

theorem doLoop_step_eq {E : Type} (done : Nat → Bool) (cause : Common.CtxErr)
    (fn : Nat → Option E) (m a : Nat) (e e2 : E) (h : ¬ m < a)
    (hd1 : done (2 * (a - 1)) = false) (hd2 : done (2 * (a - 1) + 1) = false)
    (hf : fn a = some e2) :
    Common.doLoop done cause fn m a e =
      ((Common.doLoop done cause fn m (a + 1) e2).1,
       (Common.doLoop done cause fn m (a + 1) e2).2 + 1) := by
  rw [Common.doLoop]
  simp [h, hd1, hd2, hf]

theorem Do_first_ok {E : Type} (done : Nat → Bool) (cause : Common.CtxErr)
    (fn : Nat → Option E) (m : Nat) (h : fn 0 = none) :
    Common.Do done cause fn m = (.ok, 1) := by
  simp [Common.Do, h]

theorem Do_first_fail {E : Type} (done : Nat → Bool) (cause : Common.CtxErr)
    (fn : Nat → Option E) (m : Nat) (e0 : E) (h : fn 0 = some e0) :
    Common.Do done cause fn m =
      ((Common.doLoop done cause fn m 1 e0).1,
       (Common.doLoop done cause fn m 1 e0).2 + 1) := by
  simp [Common.Do, h]

theorem doLoop_calls_le {E : Type} (cause : Common.CtxErr)
    (fn : Nat → Option E) (m : Nat) :
    ∀ fuel a e, m + 1 - a ≤ fuel →
    (Common.doLoop Common.neverDone cause fn m a e).2 ≤ m + 1 - a := by
  intro fuel
  induction fuel with
  | zero =>
    intro a e h
    rw [doLoop_exhausted_eq _ _ _ _ _ _ (by omega : m < a)]
    simp
  | succ fuel ih =>
    intro a e h
    by_cases h1 : m < a
    · rw [doLoop_exhausted_eq _ _ _ _ _ _ h1]
      simp
    · cases hf : fn a with
      | none =>
        rw [doLoop_ok_eq _ _ _ _ _ _ h1 rfl rfl hf]
        simp only []
        omega
      | some e2 =>
        rw [doLoop_step_eq _ _ _ _ _ _ _ h1 rfl rfl hf]
        have := ih (a + 1) e2 (by omega)
        simp only []
        omega

theorem doLoop_success {E : Type} (cause : Common.CtxErr)
    (fn : Nat → Option E) (m k : Nat) (hk : k ≤ m) (hfk : fn k = none) :
    ∀ fuel a e, k - a ≤ fuel → 1 ≤ a → a ≤ k →
    (∀ j, a ≤ j → j < k → fn j ≠ none) →
    Common.doLoop Common.neverDone cause fn m a e = (.ok, k + 1 - a) := by
  intro fuel
  induction fuel with
  | zero =>
    intro a e h ha1 hak hprev
    have haeq : a = k := by omega
    subst haeq
    rw [doLoop_ok_eq _ _ _ _ _ _ (by omega : ¬ m < a) rfl rfl hfk]
    congr 1
    all_goals omega
  | succ fuel ih =>
    intro a e h ha1 hak hprev
    by_cases haeq : a = k
    · subst haeq
      rw [doLoop_ok_eq _ _ _ _ _ _ (by omega : ¬ m < a) rfl rfl hfk]
      congr 1
      all_goals omega
    · have halt : a < k := by omega
      cases hfa : fn a with
      | none => exact absurd hfa (hprev a le_rfl halt)
      | some e2 =>
        rw [doLoop_step_eq _ _ _ _ _ _ _ (by omega : ¬ m < a) rfl rfl hfa]
        rw [ih (a + 1) e2 (by omega) (by omega) (by omega)
          (fun j hj1 hj2 => hprev j (by omega) hj2)]
        simp only []
        congr 1
        all_goals omega

theorem doLoop_exhaust {E : Type} (cause : Common.CtxErr)
    (fn : Nat → Option E) (m : Nat) :
    ∀ fuel a e, m + 1 - a ≤ fuel → 1 ≤ a → a ≤ m →
    (∀ j, a ≤ j → j ≤ m → fn j ≠ none) →
    ∃ em, fn m = some em ∧
      Common.doLoop Common.neverDone cause fn m a e =
        (.exhausted (m + 1) em, m + 1 - a) := by
  intro fuel
  induction fuel with
  | zero => intro a e h ha1 ham _; omega
  | succ fuel ih =>
    intro a e h ha1 ham hall
    cases hfa : fn a with
    | none => exact absurd hfa (hall a le_rfl ham)
    | some e2 =>
      by_cases haeq : a = m
      · subst haeq
        refine ⟨e2, hfa, ?_⟩
        rw [doLoop_step_eq _ _ _ _ _ _ _ (by omega : ¬ a < a) rfl rfl hfa]
        rw [doLoop_exhausted_eq _ _ _ _ _ _ (by omega : a < a + 1)]
        simp only []
        congr 1
        all_goals omega
      · obtain ⟨em, hm, heq2⟩ := ih (a + 1) e2 (by omega) (by omega)
          (by omega) (fun j hj1 hj2 => hall j (by omega) hj2)
        refine ⟨em, hm, ?_⟩
        rw [doLoop_step_eq _ _ _ _ _ _ _ (by omega : ¬ m < a) rfl rfl hfa]
        rw [heq2]
        simp only []
        congr 1
        all_goals omega

/-- Claim C1: for every operation and retry configuration, absent context
cancellation, common.Do calls the operation at least once and at most
maxRetries+1 times; it returns success as soon as an attempt succeeds,
having called the operation exactly that many times and making no further
calls; if all maxRetries+1 attempts fail, it returns an error that wraps
the last observed error and reports the total number of attempts made. -/
theorem retry_do_spec {E : Type} (cause : Common.CtxErr) (fn : Nat → Option E)
    (m : Nat) :
    (1 ≤ (Common.Do Common.neverDone cause fn m).2 ∧
     (Common.Do Common.neverDone cause fn m).2 ≤ m + 1) ∧
    (∀ k, k ≤ m → fn k = none → (∀ j, j < k → fn j ≠ none) →
      Common.Do Common.neverDone cause fn m = (.ok, k + 1)) ∧
    ((∀ j, j ≤ m → fn j ≠ none) →
      ∃ em, fn m = some em ∧
        Common.Do Common.neverDone cause fn m =
          (.exhausted (m + 1) em, m + 1)) := by
  refine ⟨?_, ?_, ?_⟩
  · cases h0 : fn 0 with
    | none =>
      rw [Do_first_ok _ _ _ _ h0]
      simp only []
      omega
    | some e0 =>
      rw [Do_first_fail _ _ _ _ _ h0]
      have := doLoop_calls_le cause fn m m 1 e0 (by omega)
      simp only []
      omega
  · intro k hk hfk hprev
    by_cases hk0 : k = 0
    · subst hk0
      rw [Do_first_ok _ _ _ _ hfk]
    · cases h0 : fn 0 with
      | none => exact absurd h0 (hprev 0 (by omega))
      | some e0 =>
        rw [Do_first_fail _ _ _ _ _ h0]
        rw [doLoop_success cause fn m k hk hfk k 1 e0 (by omega) le_rfl
          (by omega) (fun j hj1 hj2 => hprev j hj2)]
        simp only []
        congr 1
        all_goals omega
  · intro hall
    cases h0 : fn 0 with
    | none => exact absurd h0 (hall 0 (by omega))
    | some e0 =>
      by_cases hm0 : m = 0
      · subst hm0
        refine ⟨e0, h0, ?_⟩
        rw [Do_first_fail _ _ _ _ _ h0]
        rw [doLoop_exhausted_eq _ _ _ _ _ _ (by omega : (0:Nat) < 1)]
      · obtain ⟨em, hm, heq⟩ := doLoop_exhaust cause fn m m 1 e0 (by omega)
          le_rfl (by omega) (fun j hj1 hj2 => hall j hj2)
        refine ⟨em, hm, ?_⟩
        rw [Do_first_fail _ _ _ _ _ h0, heq]
        simp only []
        congr 1
        all_goals omega

/-- Witness for C1 at concrete inputs: an operation failing twice then
succeeding, with three allowed retries, succeeds after exactly 3 calls; an
always-failing operation with maxRetries 2 is called 3 times and the
failure wraps the last error and the attempt count. -/
theorem retry_do_spec_witness :
    Common.Do Common.neverDone .canceled failTwice 3 = (.ok, 3) ∧
    Common.Do Common.neverDone .canceled alwaysFail 2 =
      (.exhausted 3 ("boom"), 3) := by
  constructor
  · exact (retry_do_spec Common.CtxErr.canceled failTwice 3).2.1 2
      (by omega) (by simp [failTwice])
      (by intro j hj; interval_cases j <;> simp [failTwice])
  · obtain ⟨em, hm, heq⟩ := (retry_do_spec Common.CtxErr.canceled alwaysFail
      2).2.2 (by intro j hj; simp [alwaysFail])
    have hb : "boom" = em := by simpa [alwaysFail] using hm
    rw [← hb] at heq
    exact heq

theorem doLoop_cancel_before {E : Type} (cause : Common.CtxErr)
    (fn : Nat → Option E) (m a : Nat) (h1 : 1 ≤ a) (h2 : a ≤ m)
    (hf : ∀ j, j < a → fn j ≠ none) :
    ∀ fuel att e, a - att ≤ fuel → 1 ≤ att → att ≤ a →
    Common.doLoop (Common.doneFrom (2 * (a - 1))) cause fn m att e =
      (.abortedBefore a cause, a - att) := by
  intro fuel
  induction fuel with
  | zero =>
    intro att e h hat1 hata
    have haeq : att = a := by omega
    subst haeq
    rw [doLoop_abortBefore_eq _ _ _ _ _ _ (by omega : ¬ m < att)
      (by simp [Common.doneFrom])]
    congr 1
    all_goals omega
  | succ fuel ih =>
    intro att e h hat1 hata
    by_cases haeq : att = a
    · subst haeq
      rw [doLoop_abortBefore_eq _ _ _ _ _ _ (by omega : ¬ m < att)
        (by simp [Common.doneFrom])]
      congr 1
      all_goals omega
    · have halt : att < a := by omega
      cases hfa : fn att with
      | none => exact absurd hfa (hf att halt)
      | some e2 =>
        rw [doLoop_step_eq _ _ _ _ _ _ _ (by omega : ¬ m < att)
          (by simp [Common.doneFrom]; all_goals omega)
          (by simp [Common.doneFrom]; all_goals omega) hfa]
        rw [ih (att + 1) e2 (by omega) (by omega) (by omega)]
        simp only []
        congr 1
        all_goals omega

theorem doLoop_cancel_backoff {E : Type} (cause : Common.CtxErr)
    (fn : Nat → Option E) (m a : Nat) (h1 : 1 ≤ a) (h2 : a ≤ m)
    (hf : ∀ j, j < a → fn j ≠ none) :
    ∀ fuel att e, a - att ≤ fuel → 1 ≤ att → att ≤ a →
    Common.doLoop (Common.doneFrom (2 * (a - 1) + 1)) cause fn m att e =
      (.abortedBackoff a m cause, a - att) := by
  intro fuel
  induction fuel with
  | zero =>
    intro att e h hat1 hata
    have haeq : att = a := by omega
    subst haeq
    rw [doLoop_abortBackoff_eq _ _ _ _ _ _ (by omega : ¬ m < att)
      (by simp [Common.doneFrom]; all_goals omega) (by simp [Common.doneFrom])]
    congr 1
    all_goals omega
  | succ fuel ih =>
    intro att e h hat1 hata
    by_cases haeq : att = a
    · subst haeq
      rw [doLoop_abortBackoff_eq _ _ _ _ _ _ (by omega : ¬ m < att)
        (by simp [Common.doneFrom]; all_goals omega) (by simp [Common.doneFrom])]
      congr 1
      all_goals omega
    · have halt : att < a := by omega
      cases hfa : fn att with
      | none => exact absurd hfa (hf att halt)
      | some e2 =>
        rw [doLoop_step_eq _ _ _ _ _ _ _ (by omega : ¬ m < att)
          (by simp [Common.doneFrom]; all_goals omega)
          (by simp [Common.doneFrom]; all_goals omega) hfa]
        rw [ih (att + 1) e2 (by omega) (by omega) (by omega)]
        simp only []
        congr 1
        all_goals omega

/-- Claim C4: if the caller's context is cancelled while common.Do is
waiting in backoff, or before an attempt begins, Do stops immediately
without invoking the operation again and returns a cancellation-kind error
carrying the context's cancellation cause, distinct from the
retries-exhausted error; in particular the operation is invoked fewer than
maxRetries+1 times (exactly `a` times when the context fires at attempt
`a`'s pre-sleep or in-sleep checkpoint). -/
theorem retry_do_cancel_spec {E : Type} (cause : Common.CtxErr)
    (fn : Nat → Option E) (m a : Nat) (h1 : 1 ≤ a) (h2 : a ≤ m)
    (hf : ∀ j, j < a → fn j ≠ none) :
    (Common.Do (Common.doneFrom (2 * (a - 1))) cause fn m =
        (.abortedBefore a cause, a) ∧
     Common.Do (Common.doneFrom (2 * (a - 1) + 1)) cause fn m =
        (.abortedBackoff a m cause, a)) ∧
    a < m + 1 ∧
    (Common.Do (Common.doneFrom (2 * (a - 1))) cause fn m).1.isCancellation
        = true ∧
    (Common.Do (Common.doneFrom (2 * (a - 1))) cause fn m).1.cause?
        = some cause ∧
    (Common.Do (Common.doneFrom (2 * (a - 1) + 1)) cause fn
        m).1.isCancellation = true ∧
    (Common.Do (Common.doneFrom (2 * (a - 1) + 1)) cause fn m).1.cause?
        = some cause ∧
    (∀ n (e : E),
      (Common.Do (Common.doneFrom (2 * (a - 1))) cause fn m).1 ≠
        .exhausted n e) ∧
    (∀ n (e : E),
      (Common.Do (Common.doneFrom (2 * (a - 1) + 1)) cause fn m).1 ≠
        .exhausted n e) := by
  cases h0 : fn 0 with
  | none => exact absurd h0 (hf 0 (by omega))
  | some e0 =>
    have hb : Common.Do (Common.doneFrom (2 * (a - 1))) cause fn m =
        (.abortedBefore a cause, a) := by
      rw [Do_first_fail _ _ _ _ _ h0]
      rw [doLoop_cancel_before cause fn m a h1 h2 hf a 1 e0 (by omega)
        le_rfl h1]
      simp only []
      congr 1
      all_goals omega
    have hk : Common.Do (Common.doneFrom (2 * (a - 1) + 1)) cause fn m =
        (.abortedBackoff a m cause, a) := by
      rw [Do_first_fail _ _ _ _ _ h0]
      rw [doLoop_cancel_backoff cause fn m a h1 h2 hf a 1 e0 (by omega)
        le_rfl h1]
      simp only []
      congr 1
      all_goals omega
    refine ⟨⟨hb, hk⟩, by omega, ?_, ?_, ?_, ?_, ?_, ?_⟩
    · rw [hb]; rfl
    · rw [hb]; rfl
    · rw [hk]; rfl
    · rw [hk]; rfl
    · intro n e; rw [hb]; simp
    · intro n e; rw [hk]; simp

/-- Witness for C4 at a concrete input: an operation failing its first two
calls, maxRetries 3, context firing at attempt 2's pre-sleep checkpoint
(index 2) or in-sleep checkpoint (index 3): both runs abort with a
cancellation error after exactly 2 calls, fewer than 4. -/
theorem retry_do_cancel_spec_witness :
    Common.Do (Common.doneFrom (2 * (2 - 1))) .canceled failTwice 3 =
      (.abortedBefore 2 .canceled, 2) ∧
    Common.Do (Common.doneFrom (2 * (2 - 1) + 1)) .canceled failTwice 3 =
      (.abortedBackoff 2 3 .canceled, 2) ∧
    2 < 3 + 1 :=
  ⟨(retry_do_cancel_spec Common.CtxErr.canceled failTwice 3 2 (by omega)
      (by omega) (by intro j hj; interval_cases j <;> simp [failTwice])).1.1,
   (retry_do_cancel_spec Common.CtxErr.canceled failTwice 3 2 (by omega)
      (by omega) (by intro j hj; interval_cases j <;> simp [failTwice])).1.2,
   by omega⟩

/-! Lemmas about the worker-pool model. -/

theorem updateCompleted_length (appraise : Repo → Except String Repo)
    (done : List Nat) : ∀ repos : List Repo,
    (Analyzer.updateCompleted appraise repos done).length = repos.length := by
  induction done with
  | nil => intro repos; rfl
  | cons j rest ih =>
    intro repos
    simp only [Analyzer.updateCompleted, List.foldl_cons] at ih ⊢
    rw [ih, List.length_set]

theorem updateCompleted_getD_not_mem (appraise : Repo → Except String Repo)
    (done : List Nat) : ∀ (repos : List Repo) (i : Nat), i ∉ done →
    (Analyzer.updateCompleted appraise repos done).getD i default =
      repos.getD i default := by
  induction done with
  | nil => intro repos i _; rfl
  | cons j rest ih =>
    intro repos i h
    have hij : i ≠ j := fun he => h (he ▸ List.mem_cons_self _ _)
    have hir : i ∉ rest := fun hm => h (List.mem_cons_of_mem _ hm)
    simp only [Analyzer.updateCompleted, List.foldl_cons] at ih ⊢
    rw [ih _ i hir, List.getD_eq_getElem?_getD, List.getD_eq_getElem?_getD,
      List.getElem?_set_ne (fun he => hij he.symm)]
    exact (List.getD_eq_getElem?_getD _ _ _).symm

theorem updateCompleted_getD_mem (appraise : Repo → Except String Repo)
    (done : List Nat) : ∀ (repos : List Repo) (i : Nat), done.Nodup →
    (∀ j ∈ done, j < repos.length) → i ∈ done →
    (Analyzer.updateCompleted appraise repos done).getD i default =
      Analyzer.processOne appraise (repos.getD i default) := by
  induction done with
  | nil => intro repos i _ _ h; cases h
  | cons j rest ih =>
    intro repos i hnd hb h
    simp only [Analyzer.updateCompleted, List.foldl_cons] at ih ⊢
    by_cases hij : i = j
    · subst hij
      have hnr : i ∉ rest := (List.nodup_cons.mp hnd).1
      have hstep := updateCompleted_getD_not_mem appraise rest
        (repos.set i (Analyzer.processOne appraise (repos.getD i default))) i hnr
      simp only [Analyzer.updateCompleted] at hstep
      rw [hstep]
      have hlt : i < repos.length := hb i (List.mem_cons_self _ _)
      rw [List.getD_eq_getElem?_getD, List.getElem?_set_eq_of_lt _ hlt]
      rfl
    · have hir : i ∈ rest := (List.mem_cons.mp h).resolve_left hij
      have hb2 : ∀ j2 ∈ rest, j2 <
          (repos.set j (Analyzer.processOne appraise (repos.getD j default))).length := by
        intro j2 hj2
        rw [List.length_set]
        exact hb j2 (List.mem_cons_of_mem _ hj2)
      rw [ih _ i (List.nodup_cons.mp hnd).2 hb2 hir]
      congr 1
      rw [List.getD_eq_getElem?_getD, List.getD_eq_getElem?_getD,
        List.getElem?_set_ne (fun he => hij he.symm)]
      exact (List.getD_eq_getElem?_getD _ _ _).symm

/-- Claim C3: when the outer context is never cancelled, AnalyzeWithLLM
returns a result set in which every input repository appears exactly once
(in some completion order, realisable for any positive worker count), with
a nil error; a repository whose appraisal failed appears with its
IsAIProgrammingTool, LLMScore and LLMReview fields unchanged from their
input values, while one whose appraisal succeeded carries the appraiser's
returned qualification flag, score and review. -/
theorem analyzeWithLLM_complete_spec (appraise : Repo → Except String Repo)
    (repos : List Repo) (order : List Nat)
    (h : order.Perm (List.range repos.length)) :
    ((Analyzer.AnalyzeWithLLM appraise repos order none).1).Perm
        (repos.map (Analyzer.processOne appraise)) ∧
    (Analyzer.AnalyzeWithLLM appraise repos order none).2 = none ∧
    (∀ r e, appraise r = .error e →
      (Analyzer.processOne appraise r).IsAIProgrammingTool =
          r.IsAIProgrammingTool ∧
      (Analyzer.processOne appraise r).LLMScore = r.LLMScore ∧
      (Analyzer.processOne appraise r).LLMReview = r.LLMReview) ∧
    (∀ r ar, appraise r = .ok ar →
      (Analyzer.processOne appraise r).IsAIProgrammingTool =
          ar.IsAIProgrammingTool ∧
      (Analyzer.processOne appraise r).LLMScore = ar.LLMScore ∧
      (Analyzer.processOne appraise r).LLMReview = ar.LLMReview) := by
  refine ⟨?_, rfl, ?_, ?_⟩
  · have hp := h.map
      (fun i => Analyzer.processOne appraise (repos.getD i default))
    rw [range_map_getD repos (Analyzer.processOne appraise)] at hp
    exact hp
  · intro r e he
    simp [Analyzer.processOne, he]
  · intro r ar he
    simp [Analyzer.processOne, he]

/-- Witness for C3 at a concrete input: five repositories, completion order
[1,0,2,4,3] (such as two workers might produce), every repository appearing
exactly once as its processed version. -/
theorem analyzeWithLLM_complete_spec_witness :
    ((Analyzer.AnalyzeWithLLM okAppraise repos5 [1, 0, 2, 4, 3] none).1).Perm
      (repos5.map (Analyzer.processOne okAppraise)) :=
  (analyzeWithLLM_complete_spec okAppraise repos5 [1, 0, 2, 4, 3]
    (by decide)).1

/-- Counterexample to C5 as stated: with two repositories, completion order
[0,1] and the outer context firing after one completion, the returned list
still contains the not-yet-completed second repository (the claim says it
is omitted) as well as the completed first repository's result (the claim
says completed results are not returned), and its length is the full input
length 2. -/
theorem analyzeWithLLM_cancel_counterexample :
    (Analyzer.AnalyzeWithLLM okAppraise [mkRepo ("c0"), mkRepo ("c1")] [0, 1]
        (some (1, .canceled))).2 = some Common.CtxErr.canceled ∧
    mkRepo ("c1") ∈
      (Analyzer.AnalyzeWithLLM okAppraise [mkRepo ("c0"), mkRepo ("c1")] [0, 1]
        (some (1, .canceled))).1 ∧
    Analyzer.processOne okAppraise (mkRepo ("c0")) ∈
      (Analyzer.AnalyzeWithLLM okAppraise [mkRepo ("c0"), mkRepo ("c1")] [0, 1]
        (some (1, .canceled))).1 ∧
    (Analyzer.AnalyzeWithLLM okAppraise [mkRepo ("c0"), mkRepo ("c1")] [0, 1]
        (some (1, .canceled))).1.length = 2 := by
  refine ⟨rfl, ?_, ?_, rfl⟩ <;> decide

/-- Claim C5 as amended: if the outer context is cancelled before all
workers finish, AnalyzeWithLLM returns the outer cancellation error
together with the full input slice — no repository is omitted: completed
repositories appear at their input position updated in place, and
not-yet-completed repositories appear unchanged. -/
theorem analyzeWithLLM_cancel_spec (appraise : Repo → Except String Repo)
    (repos : List Repo) (order : List Nat) (k : Nat)
    (cause : Common.CtxErr) (hnd : order.Nodup)
    (hb : ∀ i ∈ order, i < repos.length) :
    (Analyzer.AnalyzeWithLLM appraise repos order (some (k, cause))).2 =
        some cause ∧
    (Analyzer.AnalyzeWithLLM appraise repos order (some (k, cause))).1.length
        = repos.length ∧
    (∀ i, i ∈ order.take k →
      (Analyzer.AnalyzeWithLLM appraise repos order
          (some (k, cause))).1.getD i default =
        Analyzer.processOne appraise (repos.getD i default)) ∧
    (∀ i, i ∉ order.take k →
      (Analyzer.AnalyzeWithLLM appraise repos order
          (some (k, cause))).1.getD i default = repos.getD i default) := by
  refine ⟨rfl, ?_, ?_, ?_⟩
  · exact updateCompleted_length appraise (order.take k) repos
  · intro i hi
    exact updateCompleted_getD_mem appraise (order.take k) repos i
      (hnd.sublist (List.take_sublist _ _))
      (fun j hj => hb j (List.take_subset _ _ hj)) hi
  · intro i hi
    exact updateCompleted_getD_not_mem appraise (order.take k) repos i hi

/-- Witness for the amended C5 at a concrete input: two repositories,
cancellation after one completion — the error is the cancellation cause and
the uncompleted repository is still present, unchanged, at its position. -/
theorem analyzeWithLLM_cancel_spec_witness :
    (Analyzer.AnalyzeWithLLM okAppraise [mkRepo ("c0"), mkRepo ("c1")] [0, 1]
        (some (1, Common.CtxErr.canceled))).2 =
      some Common.CtxErr.canceled ∧
    (Analyzer.AnalyzeWithLLM okAppraise [mkRepo ("c0"), mkRepo ("c1")] [0, 1]
        (some (1, Common.CtxErr.canceled))).1.getD 1 default =
      mkRepo ("c1") := by
  have h := analyzeWithLLM_cancel_spec okAppraise [mkRepo ("c0"), mkRepo ("c1")]
    [0, 1] 1 Common.CtxErr.canceled (by decide) (by decide)
  refine ⟨h.1, ?_⟩
  rw [h.2.2.2 1 (by decide)]
  decide

/-! Lemmas about the persist/notify loop. -/

theorem processRepo_save_mem (oc : Service.Oracles) (st : Service.StoreSt)
    (r : Repo) :
    Service.Event.save r.ID ∈ (Service.processRepo oc st r).2.1 →
      r.IsAIProgrammingTool = true ∧ 50 ≤ r.LLMScore ∧
      oc.existsFail r.ID = false ∧ r.ID ∉ st.existing := by
  simp only [Service.processRepo]
  split_ifs <;> simp_all <;> omega

theorem processRepo_skip (oc : Service.Oracles) (st : Service.StoreSt)
    (r : Repo) (h : oc.existsFail r.ID = true ∨ r.ID ∈ st.existing) :
    Service.Event.save r.ID ∉ (Service.processRepo oc st r).2.1 ∧
    Service.Event.notify r.ID ∉ (Service.processRepo oc st r).2.1 ∧
    Service.Event.markNotified r.ID ∉ (Service.processRepo oc st r).2.1 := by
  simp only [Service.processRepo]
  rcases h with h | h <;> split_ifs <;> simp_all

theorem processRepo_notify_mem (oc : Service.Oracles) (st : Service.StoreSt)
    (r : Repo) :
    Service.Event.notify r.ID ∈ (Service.processRepo oc st r).2.1 →
      Service.Event.save r.ID ∈ (Service.processRepo oc st r).2.1 ∧
      oc.saveFail r.ID = false := by
  simp only [Service.processRepo]
  split_ifs <;> simp_all

theorem processRepo_mark_mem (oc : Service.Oracles) (st : Service.StoreSt)
    (r : Repo) :
    Service.Event.markNotified r.ID ∈ (Service.processRepo oc st r).2.1 →
      Service.Event.notify r.ID ∈ (Service.processRepo oc st r).2.1 ∧
      oc.notifyFail r.ID = false := by
  simp only [Service.processRepo]
  split_ifs <;> simp_all

theorem processRepo_mark_mem_id (oc : Service.Oracles) (st : Service.StoreSt)
    (r : Repo) (id : String) :
    Service.Event.markNotified id ∈ (Service.processRepo oc st r).2.1 →
      id = r.ID ∧ r.ID ∉ st.existing ∧
      id ∈ ((Service.processRepo oc st r).1).existing := by
  simp only [Service.processRepo]
  split_ifs <;> simp_all

theorem processRepo_existing_mono (oc : Service.Oracles) (st : Service.StoreSt)
    (r : Repo) (id : String) (h : id ∈ st.existing) :
    id ∈ ((Service.processRepo oc st r).1).existing := by
  simp only [Service.processRepo]
  split_ifs <;> simp_all

theorem processRepo_mark_count_le_one (oc : Service.Oracles)
    (st : Service.StoreSt) (r : Repo) (id : String) :
    ((Service.processRepo oc st r).2.1).count
      (Service.Event.markNotified id) ≤ 1 := by
  simp only [Service.processRepo]
  split_ifs <;> simp [List.count_cons] <;> split_ifs <;> omega

theorem persistLoop_mark_zero (oc : Service.Oracles) (cancelled : Nat → Bool) :
    ∀ (repos : List Repo) (st : Service.StoreSt) (idx : Nat) (id : String),
    id ∈ st.existing →
    ((Service.persistLoop oc cancelled st idx repos).2.1).count
      (Service.Event.markNotified id) = 0 := by
  intro repos
  induction repos with
  | nil => intro st idx id _; simp [Service.persistLoop]
  | cons r rest ih =>
    intro st idx id hid
    by_cases hc : cancelled idx
    · simp [Service.persistLoop, hc]
    · simp only [Service.persistLoop, hc, Bool.false_eq_true, if_false]
      rw [List.count_append]
      have h1 : ((Service.processRepo oc st r).2.1).count
          (Service.Event.markNotified id) = 0 := by
        rw [List.count_eq_zero]
        intro hmem
        obtain ⟨he, hne, _⟩ := processRepo_mark_mem_id oc st r id hmem
        exact hne (he ▸ hid)
      rw [h1, ih _ _ id (processRepo_existing_mono oc st r id hid)]

theorem persistLoop_mark_le_one (oc : Service.Oracles) (cancelled : Nat → Bool) :
    ∀ (repos : List Repo) (st : Service.StoreSt) (idx : Nat) (id : String),
    ((Service.persistLoop oc cancelled st idx repos).2.1).count
      (Service.Event.markNotified id) ≤ 1 := by
  intro repos
  induction repos with
  | nil => intro st idx id; simp [Service.persistLoop]
  | cons r rest ih =>
    intro st idx id
    by_cases hc : cancelled idx
    · simp [Service.persistLoop, hc]
    · simp only [Service.persistLoop, hc, Bool.false_eq_true, if_false]
      rw [List.count_append]
      by_cases hmem : Service.Event.markNotified id ∈
          (Service.processRepo oc st r).2.1
      · have h2 := persistLoop_mark_zero oc cancelled rest
          (Service.processRepo oc st r).1 (idx + 1) id
          (processRepo_mark_mem_id oc st r id hmem).2.2
        have h1 := processRepo_mark_count_le_one oc st r id
        omega
      · rw [List.count_eq_zero.mpr hmem]
        have := ih (Service.processRepo oc st r).1 (idx + 1) id
        omega

/-- Claim C2: in the persist/notify stage, for each analyzed repository,
Save is invoked only if the repository is flagged as an AI programming
tool, has LLMScore at least 50, and the Exists check reported it absent (an
Exists error or an existing record causes a skip with no
Save/Notify/MarkAsNotified); Notify is invoked only after that repository's
Save succeeded; MarkAsNotified is invoked only after that repository's
Notify succeeded, and at most once per repository per cycle. -/
theorem persist_notify_guards :
    (∀ (oc : Service.Oracles) (st : Service.StoreSt) (r : Repo),
      (Service.Event.save r.ID ∈ (Service.processRepo oc st r).2.1 →
        r.IsAIProgrammingTool = true ∧ 50 ≤ r.LLMScore ∧
        oc.existsFail r.ID = false ∧ r.ID ∉ st.existing) ∧
      ((oc.existsFail r.ID = true ∨ r.ID ∈ st.existing) →
        Service.Event.save r.ID ∉ (Service.processRepo oc st r).2.1 ∧
        Service.Event.notify r.ID ∉ (Service.processRepo oc st r).2.1 ∧
        Service.Event.markNotified r.ID ∉ (Service.processRepo oc st r).2.1) ∧
      (Service.Event.notify r.ID ∈ (Service.processRepo oc st r).2.1 →
        Service.Event.save r.ID ∈ (Service.processRepo oc st r).2.1 ∧
        oc.saveFail r.ID = false) ∧
      (Service.Event.markNotified r.ID ∈ (Service.processRepo oc st r).2.1 →
        Service.Event.notify r.ID ∈ (Service.processRepo oc st r).2.1 ∧
        oc.notifyFail r.ID = false)) ∧
    (∀ (oc : Service.Oracles) (cancelled : Nat → Bool)
       (st : Service.StoreSt) (idx : Nat) (repos : List Repo) (id : String),
      ((Service.persistLoop oc cancelled st idx repos).2.1).count
        (Service.Event.markNotified id) ≤ 1) :=
  ⟨fun oc st r =>
    ⟨processRepo_save_mem oc st r, processRepo_skip oc st r,
     processRepo_notify_mem oc st r, processRepo_mark_mem oc st r⟩,
   fun oc cancelled st idx repos id =>
    persistLoop_mark_le_one oc cancelled repos st idx id⟩

/-- Witness for C2 at a concrete input: a qualifying repository with score
80 in an empty store with all-success collaborators is saved, and indeed
met the qualification bar with the Exists check reporting it absent. -/
theorem persist_notify_guards_witness :
    freshRepo.IsAIProgrammingTool = true ∧ 50 ≤ freshRepo.LLMScore ∧
    okOracles.existsFail freshRepo.ID = false ∧
    freshRepo.ID ∉ emptyStore.existing :=
  (persist_notify_guards.1 okOracles emptyStore freshRepo).1 (by decide)

/-! Lemmas about the mining cycle. -/

theorem persistLoop_cancelFrom (oc : Service.Oracles) (j : Nat) :
    ∀ (repos : List Repo) (st : Service.StoreSt) (idx : Nat),
    Service.persistLoop oc (fun i => decide (j ≤ i)) st idx repos =
      Service.persistLoop oc (fun _ => false) st idx
        (repos.take (j - idx)) := by
  intro repos
  induction repos with
  | nil => intro st idx; simp [Service.persistLoop]
  | cons r rest ih =>
    intro st idx
    by_cases hc : j ≤ idx
    · have hz : j - idx = 0 := by omega
      rw [hz]
      simp [Service.persistLoop, hc]
    · have hs : j - idx = (j - (idx + 1)) + 1 := by omega
      rw [hs, List.take_succ_cons]
      simp only [Service.persistLoop, decide_eq_true_eq, hc,
        Bool.false_eq_true, if_false]
      rw [ih]

/-- Claim C6: ExecuteMiningCycle always completes with a success
indication: for every combination of fetch, filter, analysis, persist and
notify collaborator failures it returns no fatal run error (the returned
error is nil in all cases, including under cancellation); cancellation
observed during the persist/notify loop (a context whose done-channel
fires from iteration j on) stops the iteration immediately, so the loop's
trace and success count are those of the uncancelled loop over only the
first j analyzed repositories, leaving the remaining ones unprocessed for
that cycle. -/
theorem executeMiningCycle_spec (env : Service.MiningEnv) :
    (Service.ExecuteMiningCycle env).err = none ∧
    (∀ j, env.cancelled = (fun i => decide (j ≤ i)) →
      (Service.ExecuteMiningCycle env).trace =
        (Service.persistLoop env.oc (fun _ => false) env.store 0
          ((Service.ExecuteMiningCycle env).analyzed.take j)).2.1 ∧
      (Service.ExecuteMiningCycle env).successCount =
        (Service.persistLoop env.oc (fun _ => false) env.store 0
          ((Service.ExecuteMiningCycle env).analyzed.take j)).2.2) := by
  constructor
  · rfl
  · intro j hc
    simp only [Service.ExecuteMiningCycle]
    rw [hc, persistLoop_cancelFrom env.oc j, Nat.sub_zero]
    exact ⟨rfl, rfl⟩

/-- Witness for C6 at a concrete input: a three-repository environment
whose context cancels from the second iteration on returns a nil error,
and its trace equals the uncancelled loop over just the first analyzed
repository. -/
theorem executeMiningCycle_spec_witness :
    (Service.ExecuteMiningCycle envExample).err = none ∧
    (Service.ExecuteMiningCycle envExample).trace =
      (Service.persistLoop envExample.oc (fun _ => false) envExample.store 0
        ((Service.ExecuteMiningCycle envExample).analyzed.take 1)).2.1 :=
  ⟨(executeMiningCycle_spec envExample).1,
   ((executeMiningCycle_spec envExample).2 1 rfl).1⟩

end GoldMiner
